import Mathlib

/-!
Verification of the hal key/address engine (src/bin/hal/cmd/key.rs,
src/bin/hal/cmd/address.rs) against its specification.

The development shallowly embeds the secp256k1 primitives the code calls
(curve constants, affine group law, scalar-by-base-point multiplication,
tweak addition, point decompression and compressed serialization) and the
glue logic of the command implementations themselves (signature decoding,
verify's byte-order retry, the address classifier, the taproot internal-key
resolution of `exec_create`, and the pubkey algebra commands).

Machine bytes are `Nat` values < 256, byte strings are `List Nat`, and
256-bit field / scalar values are `Nat` with explicit reduction `% p`
(resp. checks against the group order `n`).  Fallible operations return
`Option` (a `none` models a library error or an `expect` panic) or a
bespoke result inductive when the error label matters.
-/

namespace Hal

/-- The secp256k1 base field prime `p = 2^256 - 2^32 - 977`. -/
def p : Nat := 0xfffffffffffffffffffffffffffffffffffffffffffffffffffffffefffffc2f

/-- The secp256k1 group order `n`. -/
def n : Nat := 0xfffffffffffffffffffffffffffffffebaaedce6af48a03bbfd25e8cd0364141

/-- Fuel-bounded modular exponentiation: `powMod m f b e = b ^ e % m`
for exponents with at most `f` binary digits. -/
def powMod (m : Nat) : Nat → Nat → Nat → Nat
  | 0, _, _ => 1 % m
  | f + 1, b, e =>
    if e = 0 then 1 % m
    else
      let r := powMod m f (b * b % m) (e / 2)
      if e % 2 = 1 then b * r % m else r

/-- Field addition modulo `p`. -/
def fadd (a b : Nat) : Nat := (a + b) % p

/-- Field subtraction modulo `p` (no `Nat` underflow: `b % p < p`). -/
def fsub (a b : Nat) : Nat := (a % p + (p - b % p)) % p

/-- Field multiplication modulo `p`. -/
def fmul (a b : Nat) : Nat := a * b % p

/-- Field inverse by Fermat's little theorem (`a ^ (p - 2) mod p`). -/
def finv (a : Nat) : Nat := powMod p 257 (a % p) (p - 2)

/-- An affine secp256k1 point (never the point at infinity); the
infinity case is represented by `none` at the `Option Pt` level,
mirroring how libsecp256k1 public keys can never be infinity. -/
structure Pt where
  x : Nat
  y : Nat
deriving DecidableEq

/-- A point is valid when its coordinates are reduced and satisfy the
curve equation `y^2 = x^3 + 7` over the field. -/
def onCurve (P : Pt) : Prop :=
  P.x < p ∧ P.y < p ∧ P.y * P.y % p = (P.x * P.x % p * P.x + 7) % p

instance (P : Pt) : Decidable (onCurve P) := by
  unfold onCurve; infer_instance

/-- Negation of a reduced field `y`-coordinate. -/
def negY (y : Nat) : Nat := (p - y % p) % p

/-- Point negation, the primitive behind `PublicKey::negate`. -/
def negPt (P : Pt) : Pt := ⟨P.x, negY P.y⟩

/-- Affine point doubling (the tangent rule). -/
def dblPt (P : Pt) : Pt :=
  let lam := fmul (fmul 3 (fmul P.x P.x)) (finv (fmul 2 P.y))
  let x3 := fsub (fsub (fmul lam lam) P.x) P.x
  ⟨x3, fsub (fmul lam (fsub P.x x3)) P.y⟩

/-- Affine chord addition for distinct `x`-coordinates. -/
def chordPt (P Q : Pt) : Pt :=
  let lam := fmul (fsub Q.y P.y) (finv (fsub Q.x P.x))
  let x3 := fsub (fsub (fmul lam lam) P.x) Q.x
  ⟨x3, fsub (fmul lam (fsub P.x x3)) P.y⟩

/-- The affine group law; `none` is the point at infinity, which arises
exactly when the second point is the negation of the first. -/
def addPt (P Q : Pt) : Option Pt :=
  if P.x = Q.x then
    if P.y = negY Q.y then none else some (dblPt P)
  else some (chordPt P Q)

/-- Group law lifted to `Option Pt` with `none` as the neutral element. -/
def addOpt : Option Pt → Option Pt → Option Pt
  | none, q => q
  | some a, none => some a
  | some a, some b => addPt a b

/-- The secp256k1 base point `G` (x-coordinate). -/
def Gx : Nat := 0x79be667ef9dcbbac55a06295ce870b07029bfcdb2dce28d959f2815b16f81798

/-- The secp256k1 base point `G` (y-coordinate). -/
def Gy : Nat := 0x483ada7726a3c4655da4fbfc0e1108a8fd17b448a68554199c47d08ffb10d4b8

/-- The secp256k1 base point `G`. -/
def Gpt : Pt := ⟨Gx, Gy⟩

/-- Fuel-bounded double-and-add scalar multiplication on `Option Pt`. -/
def mulPt : Nat → Nat → Option Pt → Option Pt
  | 0, _, _ => none
  | f + 1, t, P =>
    if t = 0 then none
    else
      addOpt (mulPt f (t / 2) (addOpt P P)) (if t % 2 = 1 then P else none)

/-- `t * G` (infinity for `t = 0`). -/
def mulG (t : Nat) : Option Pt := mulPt 257 t (some Gpt)

/-- The primitive behind `PublicKey::add_exp_tweak`: `P + t * G`, with
`none` (the library's error) exactly when the sum is infinity. -/
def tweakAdd (P : Pt) (t : Nat) : Option Pt := addOpt (some P) (mulG t)

/-- `Scalar::from_be_bytes`: accepts any 32-byte big-endian value below
the group order `n` (zero included); never reduces modulo `n`. -/
def fromBytesBE (l : List Nat) : Nat := l.foldl (fun acc b => acc * 256 + b) 0

/-- Fixed-width big-endian byte rendering (most significant first). -/
def toBytesBE : Nat → Nat → List Nat
  | 0, _ => []
  | k + 1, x => toBytesBE k (x / 256) ++ [x % 256]

def scalar_from_be_bytes (bytes : List Nat) : Option Nat :=
  if bytes.length = 32 then
    let v := fromBytesBE bytes
    if v < n then some v else none
  else none

/-- SEC1 point decompression, the primitive behind parsing a 33-byte
public key: recover `y` from the parity byte (2 = even, 3 = odd) and the
`x` coordinate, using `sqrt a = a ^ ((p + 1) / 4)` (valid as `p % 4 = 3`). -/
def decompressPoint (pfx x : Nat) : Option Pt :=
  if x < p ∧ (pfx = 2 ∨ pfx = 3) then
    let y2 := (x * x % p * x + 7) % p
    let r := powMod p 257 y2 ((p + 1) / 4)
    let y := if pfx = 2 then (if r % 2 = 0 then r else (p - r) % p)
             else (if r % 2 = 1 then r else (p - r) % p)
    if y * y % p = y2 then some ⟨x, y⟩ else none
  else none

/-- SEC1 uncompressed/compressed public-key parsing
(`secp256k1::PublicKey::from_slice` on the byte level). -/
def parse_pubkey_bytes (l : List Nat) : Option Pt :=
  if l.length = 33 then
    decompressPoint (l.headD 0) (fromBytesBE (l.drop 1))
  else if l.length = 65 then
    if l.headD 0 = 4 then
      let P : Pt := ⟨fromBytesBE ((l.drop 1).take 32), fromBytesBE (l.drop 33)⟩
      if onCurve P then some P else none
    else none
  else none

/-- The 33-byte compressed SEC1 serialization used by
`secp256k1::PublicKey::serialize` and its `Display` implementation. -/
def serialize_compressed (P : Pt) : List Nat :=
  (if P.y % 2 = 0 then 2 else 3) :: toBytesBE 32 P.x

/-- The x-coordinate of the BIP-341 NUMS point `H`, from the hex constant
in the `lazy_static` block of address.rs (a compressed key with an even-y
prefix byte 02). -/
def NUMS_H_x : Nat := 0x50929b74c1a04954b78b4b6035e97a5e078a5a0f28ec96d547bfee9ace803ac0

/-- The BIP-341 NUMS point `H` (`static ref NUMS_H` in address.rs),
obtained by parsing its compressed encoding; `.unwrap()` in the source is
modelled by `getD` (the default is never reached, see `NUMS_H_decompress`). -/
def NUMS_H : Pt := (decompressPoint 2 NUMS_H_x).getD ⟨0, 0⟩

/-- `fn nums(entropy)` of address.rs: `NUMS_H.add_exp_tweak(&SECP, &entropy)`;
the `.expect("invalid NUMS entropy")` panic is modelled by `none`. -/
def nums (entropy : Nat) : Option Pt := tweakAdd NUMS_H entropy

/-- A `bitcoin::PublicKey`: a curve point plus the compression flag that
governs only its own serialized form. -/
structure PublicKey where
  pt : Pt
  compressed : Bool
deriving DecidableEq

/-- Algebraic error labels of the point commands (§7 of the spec). -/
inductive AlgError
  | invalidTweak
  | invalidCombination
deriving DecidableEq

/-- Result of a point command: an output point or an algebraic error. -/
inductive PointResult
  | ok (P : Pt)
  | error (e : AlgError)
deriving DecidableEq

/-- Core of `exec_pubkey_tweak_add` (key.rs): parse the 32-byte scalar
(`none` models the `expect` panic on a malformed or out-of-range scalar),
run `add_exp_tweak`, and on success print the ORIGINAL input point
(`Ok(..) => eprintln!(point.to_string())` — the computed sum is discarded);
on failure exit 1 (`error invalidTweak`). -/
def exec_pubkey_tweak_add (point : Pt) (scalar_bytes : List Nat) :
    Option PointResult :=
  match scalar_from_be_bytes scalar_bytes with
  | none => none
  | some t =>
    some (match tweakAdd point t with
      | some _ => .ok point
      | none => .error .invalidTweak)

/-- Core of `exec_pubkey_combine` (key.rs): `pk1.inner.combine(&pk2.inner)`,
printing the sum on success, exiting 1 on the infinity error. -/
def exec_pubkey_combine (pk1 pk2 : Pt) : PointResult :=
  match addPt pk1 pk2 with
  | some sum => .ok sum
  | none => .error .invalidCombination

/-- Output bytes of `exec_pubkey_combine`: the `Display` of the
`secp256k1::PublicKey` sum, i.e. always the compressed serialization. -/
def exec_pubkey_combine_out (pk1 pk2 : PublicKey) :
    Option (List Nat) :=
  match exec_pubkey_combine pk1.pt pk2.pt with
  | .ok sum => some (serialize_compressed sum)
  | .error _ => none

/-- Output bytes of `exec_negate_pubkey` (key.rs): negate the inner
`secp256k1::PublicKey` and `write!` its `Display`, i.e. the compressed
serialization of the negation, whatever the input compression flag was. -/
def exec_negate_pubkey (key : PublicKey) : List Nat :=
  serialize_compressed (negPt key.pt)

/-- Outcome of the `verify` command, distinguishing which digest byte
order the signature verified against (§4.5 `verifyWithByteOrderHint`). -/
inductive VerifyOutcome
  | validAsGiven
  | validReversed
  | invalid
deriving DecidableEq

/-- Core of `exec_verify` (key.rs), abstracted over the external ECDSA
check `verify` (`SECP.verify_ecdsa` with the fixed pubkey and signature).
The digest must be exactly 32 bytes (`Message::from_slice`, `none` models
the panic).  The primary check uses the message as given (reversed first
when the `--reverse` flag is set); when it fails and `--no-try-reverse`
is absent, the byte-reversed digest is tried, and success there is the
`validReversed` outcome (the source prints the reversal hint; the process
itself still reports invalid, which §7 calls presentation policy). -/
def exec_verify (verify : List Nat → Bool) (msg_bytes : List Nat)
    (reverse no_try_reverse : Bool) : Option VerifyOutcome :=
  let m := if reverse then msg_bytes.reverse else msg_bytes
  if m.length = 32 then
    if verify m then some .validAsGiven
    else if !no_try_reverse && verify m.reverse then some .validReversed
    else some .invalid
  else none

/-! ### Signature decoding (exec_verify lines 172-180) -/

/-- `secp256k1::ecdsa::Signature::from_compact`: a 64-byte string split
into two 32-byte big-endian scalars, rejected when either is ≥ `n`. -/
def from_compact (l : List Nat) : Option (Nat × Nat) :=
  if l.length = 64 then
    let r := fromBytesBE (l.take 32)
    let s := fromBytesBE (l.drop 32)
    if r < n ∧ s < n then some (r, s) else none
  else none

/-- Excessive-padding test of strict DER integer parsing: a leading zero
byte is only allowed when the following byte has its top bit set. -/
def badPad : List Nat → Bool
  | 0 :: b2 :: _ => decide (b2 < 128)
  | _ => false

/-- Strict DER parsing of one `INTEGER` field (tag 0x02, short-form
length): rejects empty bodies, negative values (top bit set) and
excessive padding, and returns the value with the remaining bytes. -/
def parseDerInt (l : List Nat) : Option (Nat × List Nat) :=
  match l with
  | 2 :: len :: rest =>
    if len = 0 then none
    else if len ≤ rest.length then
      match rest.take len with
      | [] => none
      | h :: t =>
        if 128 ≤ h then none
        else if badPad (h :: t) then none
        else some (fromBytesBE (h :: t), rest.drop len)
    else none
  | _ => none

/-- `secp256k1::ecdsa::Signature::from_der`: a strict DER `SEQUENCE`
(tag 0x30, short-form length covering the rest) of exactly two
`INTEGER`s, with no trailing bytes. -/
def from_der (l : List Nat) : Option (Nat × Nat) :=
  match l with
  | 48 :: len :: rest =>
    if len = rest.length then
      match parseDerInt rest with
      | some (r, rest2) =>
        match parseDerInt rest2 with
        | some (s, rest3) => if rest3 = [] then some (r, s) else none
        | none => none
      | none => none
    else none
  | _ => none

/-- The signature-decoding block of `exec_verify` (key.rs lines 172-180):
64 bytes are parsed as the compact form, any other length as DER. -/
def decode_signature (l : List Nat) : Option (Nat × Nat) :=
  if l.length = 64 then from_compact l else from_der l

/-- Minimal big-endian byte rendering (empty for zero), fuel-bounded. -/
def minBytesBE : Nat → Nat → List Nat
  | 0, _ => []
  | f + 1, x => if x = 0 then [] else minBytesBE f (x / 256) ++ [x % 256]

/-- The canonical 64-byte compact encoding of a signature value. -/
def compactEncode (r s : Nat) : List Nat := toBytesBE 32 r ++ toBytesBE 32 s

/-- The canonical DER encoding of one `INTEGER`: minimal big-endian
bytes, zero-padded in front when the top bit is set, with tag and length. -/
def derInt (x : Nat) : List Nat :=
  let b := match minBytesBE 40 x with
    | [] => [0]
    | h :: t => if 128 ≤ h then 0 :: h :: t else h :: t
  2 :: b.length :: b

/-- The canonical DER encoding of a signature value (the form
`Signature::serialize_der` produces). -/
def derEncode (r s : Nat) : List Nat :=
  let ri := derInt r
  let si := derInt s
  48 :: (ri.length + si.length) :: (ri ++ si)

/-! ### Address classification (address.rs exec_inspect) -/

/-- The `bitcoin::Network` tag (affects only text encoding). -/
inductive Network
  | bitcoin
  | testnet
  | signet
  | regtest
deriving DecidableEq

/-- The decoded payload of an address (`bitcoin::util::address::Payload`). -/
inductive Payload
  | pubkeyHash (h : List Nat)
  | scriptHash (h : List Nat)
  | witnessProgram (version : Nat) (program : List Nat)
deriving DecidableEq

/-- A decoded address (`bitcoin::Address`): the output of the external
bech32/base58 text decoding that `exec_inspect` starts from. -/
structure Address where
  network : Network
  payload : Payload
deriving DecidableEq

/-- The script-pubkey bytes of an address payload
(`Address::script_pubkey`, an external primitive of the bitcoin crate). -/
def scriptPubKeyBytes : Payload → List Nat
  | .pubkeyHash h => [0x76, 0xa9, 0x14] ++ h ++ [0x88, 0xac]
  | .scriptHash h => [0xa9, 0x14] ++ h ++ [0x87]
  | .witnessProgram v prog =>
    (if v = 0 then 0 else 0x50 + v) :: prog.length :: prog

/-- The structural report `hal::address::AddressInfo` filled in by
`exec_inspect` (the assembly rendering of the script is omitted: it is
pure text formatting by an external collaborator). -/
structure AddressInfo where
  network : Network
  script_pub_key_hex : List Nat
  type_ : Option String
  pubkey_hash : Option (List Nat)
  script_hash : Option (List Nat)
  witness_pubkey_hash : Option (List Nat)
  witness_script_hash : Option (List Nat)
  witness_program_version : Option Nat
deriving DecidableEq

/-- Core of `exec_inspect` (address.rs): classify an already-decoded
address into its structural report.  The function itself is total and has
an `invalid-witness-program` branch for non-standard version-0 shapes;
under the pinned decode primitive (`segwit_payload_check` below) such
payloads are rejected at parse time, so that branch is unreachable. -/
def exec_inspect (address : Address) : AddressInfo :=
  let base : AddressInfo := {
    network := address.network
    script_pub_key_hex := scriptPubKeyBytes address.payload
    type_ := none
    pubkey_hash := none
    script_hash := none
    witness_pubkey_hash := none
    witness_script_hash := none
    witness_program_version := none
  }
  match address.payload with
  | .pubkeyHash pkh =>
    { base with type_ := some "p2pkh", pubkey_hash := some pkh }
  | .scriptHash sh =>
    { base with type_ := some "p2sh", script_hash := some sh }
  | .witnessProgram version program =>
    let base := { base with witness_program_version := some version }
    if version = 0 then
      if program.length = 20 then
        { base with type_ := some "p2wpkh", witness_pubkey_hash := some program }
      else if program.length = 32 then
        { base with type_ := some "p2wsh", witness_script_hash := some program }
      else
        { base with type_ := some "invalid-witness-program" }
    else
      { base with type_ := some "unknown-witness-program-version" }

/-- The witness-program validation inside rust-bitcoin 0.29's
`Address::from_str`, the external decode primitive invoked by
`address_str.parse()` at address.rs line 117: after bech32 decoding, a
witness program is accepted only when its length is within 2..40 and its
version within 0..16, and — the segwit v0 rule — a version-0 program must
be exactly 20 or 32 bytes, anything else failing with
`Error::InvalidSegwitV0ProgramLength` before an `Address` value exists. -/
def segwit_payload_check (version : Nat) (program : List Nat) : Option Payload :=
  if 2 ≤ program.length ∧ program.length ≤ 40 then
    if version = 0 then
      if program.length = 20 ∨ program.length = 32 then
        some (.witnessProgram 0 program)
      else none
    else if version ≤ 16 then some (.witnessProgram version program)
    else none
  else none

/-- The `inspect` command pipeline on a segwit address string: the text
decode (`address_str.parse()`, whose `.expect("invalid address format")`
panic at address.rs:117 is the `none` case) followed by the classifier
`exec_inspect`. -/
def exec_inspect_segwit (net : Network) (version : Nat) (program : List Nat) :
    Option AddressInfo :=
  (segwit_payload_check version program).map
    (fun payload => exec_inspect ⟨net, payload⟩)

/-! ### Taproot internal-key resolution (address.rs exec_create) -/

/-- Modelled from the spec: `util::more_than_one` (the `hal` crate's
util module is not under src/); per §4.4, supplying "more than one
simultaneously" of the mutually exclusive sources is the configuration
error, so this counts the `true` flags and tests for at least two. -/
def more_than_one (bools : List Bool) : Bool :=
  Nat.blt 1 (bools.filter (fun b => b)).length

/-- Failure labels of the `exec_create` script branch: the configuration
error (printed usage + exit 1) and the `expect` panics of the three
resolution paths. -/
inductive CreateError
  | ambiguousInternalKeySource
  | invalidNumsKey
  | invalidEntropyFormat
  | invalidNumsEntropy
  | invalidNumsTweak
deriving DecidableEq

/-- The NUMS-handling part of `exec_create` (address.rs lines 77-101):
first the mutual-exclusion check over the three argument presence flags,
then resolution of the internal key from whichever single source is
present (`none` result: no taproot address is added). -/
def exec_create_nums (nums_h_flag : Bool) (nums_key : Option (List Nat))
    (nums_entropy : Option (List Nat)) : Except CreateError (Option Pt) :=
  if more_than_one [nums_h_flag, nums_key.isSome, nums_entropy.isSome] then
    .error .ambiguousInternalKeySource
  else if nums_h_flag then .ok (some NUMS_H)
  else
    match nums_key with
    | some bs =>
      match parse_pubkey_bytes bs with
      | some pk => .ok (some pk)
      | none => .error .invalidNumsKey
    | none =>
      match nums_entropy with
      | some ent =>
        if ent.length = 32 then
          match scalar_from_be_bytes ent with
          | some t =>
            match nums t with
            | some pk => .ok (some pk)
            | none => .error .invalidNumsTweak
          | none => .error .invalidNumsEntropy
        else .error .invalidEntropyFormat
      | none => .ok none

/-! ### Basic facts about the field and the byte codecs -/

theorem p_pos : 0 < p := by decide

theorem foldl_mulAdd (l : List Nat) (a : Nat) :
    l.foldl (fun acc b => acc * 256 + b) a = a * 256 ^ l.length + fromBytesBE l := by
  induction l generalizing a with
  | nil => simp [fromBytesBE]
  | cons b t ih =>
    show List.foldl _ (a * 256 + b) t = _
    rw [ih (a * 256 + b)]
    have hcons : fromBytesBE (b :: t) = b * 256 ^ t.length + fromBytesBE t := by
      show List.foldl _ (0 * 256 + b) t = _
      rw [ih (0 * 256 + b)]
      ring_nf
    rw [hcons, List.length_cons, Nat.pow_succ]
    ring

theorem fromBytesBE_append (l1 l2 : List Nat) :
    fromBytesBE (l1 ++ l2) = fromBytesBE l1 * 256 ^ l2.length + fromBytesBE l2 := by
  show List.foldl _ 0 (l1 ++ l2) = _
  rw [List.foldl_append]
  exact foldl_mulAdd l2 _

theorem fromBytesBE_cons (b : Nat) (t : List Nat) :
    fromBytesBE (b :: t) = b * 256 ^ t.length + fromBytesBE t := by
  show List.foldl _ (0 * 256 + b) t = _
  rw [foldl_mulAdd t (0 * 256 + b)]
  ring_nf

theorem toBytesBE_length (k x : Nat) : (toBytesBE k x).length = k := by
  induction k generalizing x with
  | zero => rfl
  | succ k ih => simp [toBytesBE, ih]

theorem fromBytesBE_toBytesBE (k x : Nat) (h : x < 256 ^ k) :
    fromBytesBE (toBytesBE k x) = x := by
  induction k generalizing x with
  | zero =>
    have hx : x = 0 := by simpa using h
    subst hx; rfl
  | succ k ih =>
    show fromBytesBE (toBytesBE k (x / 256) ++ [x % 256]) = x
    rw [fromBytesBE_append]
    have hdiv : x / 256 < 256 ^ k := by
      rw [Nat.div_lt_iff_lt_mul (by omega)]
      calc x < 256 ^ (k + 1) := h
        _ = 256 ^ k * 256 := by rw [Nat.pow_succ]
    rw [ih (x / 256) hdiv]
    show x / 256 * 256 ^ 1 + (0 * 256 + x % 256) = x
    have := Nat.div_add_mod x 256
    simp [Nat.pow_one]
    omega

theorem minBytesBE_zero (f : Nat) : minBytesBE f 0 = [] := by
  cases f <;> simp [minBytesBE]

theorem fromBytesBE_minBytesBE (f x : Nat) (h : x < 256 ^ f) :
    fromBytesBE (minBytesBE f x) = x := by
  induction f generalizing x with
  | zero =>
    have hx : x = 0 := by simpa using h
    subst hx; rfl
  | succ f ih =>
    by_cases hx : x = 0
    · subst hx; rw [minBytesBE_zero]; rfl
    · show fromBytesBE (if x = 0 then [] else minBytesBE f (x / 256) ++ [x % 256]) = x
      rw [if_neg hx, fromBytesBE_append]
      have hdiv : x / 256 < 256 ^ f := by
        rw [Nat.div_lt_iff_lt_mul (by omega)]
        calc x < 256 ^ (f + 1) := h
          _ = 256 ^ f * 256 := by rw [Nat.pow_succ]
      rw [ih (x / 256) hdiv]
      show x / 256 * 256 ^ 1 + (0 * 256 + x % 256) = x
      have := Nat.div_add_mod x 256
      simp [Nat.pow_one]
      omega

theorem minBytesBE_head (f x : Nat) (h1 : 0 < x) (h2 : x < 256 ^ f) :
    ∃ hd tl, minBytesBE f x = hd :: tl ∧ 0 < hd ∧ hd < 256 := by
  induction f generalizing x with
  | zero => simp at h2; omega
  | succ f ih =>
    have hx : x ≠ 0 := by omega
    by_cases hq : x / 256 = 0
    · refine ⟨x % 256, [], ?_, ?_, Nat.mod_lt x (by omega)⟩
      · show (if x = 0 then [] else minBytesBE f (x / 256) ++ [x % 256]) = _
        rw [if_neg hx, hq, minBytesBE_zero]
        rfl
      · have hsmall : x < 256 := by omega
        rw [Nat.mod_eq_of_lt hsmall]
        exact h1
    · have hdiv : x / 256 < 256 ^ f := by
        rw [Nat.div_lt_iff_lt_mul (by omega)]
        calc x < 256 ^ (f + 1) := h2
          _ = 256 ^ f * 256 := by rw [Nat.pow_succ]
      obtain ⟨hd, tl, heq, hp1, hp2⟩ := ih (x / 256) (by omega) hdiv
      refine ⟨hd, tl ++ [x % 256], ?_, hp1, hp2⟩
      show (if x = 0 then [] else minBytesBE f (x / 256) ++ [x % 256]) = _
      rw [if_neg hx, heq]
      rfl

theorem badPad_of_ne_zero (hd : Nat) (t : List Nat) (h : hd ≠ 0) :
    badPad (hd :: t) = false := by
  cases t with
  | nil =>
    cases hd with
    | zero => exact absurd rfl h
    | succ m => rfl
  | cons b2 t2 =>
    cases hd with
    | zero => exact absurd rfl h
    | succ m => rfl

theorem badPad_of_high (b2 : Nat) (t : List Nat) (h : 128 ≤ b2) :
    badPad (0 :: b2 :: t) = false := by
  show decide (b2 < 128) = false
  exact decide_eq_false (by omega)

theorem derInt_eq_high (x : Nat) (hd : Nat) (tl : List Nat)
    (heq : minBytesBE 40 x = hd :: tl) (hhi : 128 ≤ hd) :
    derInt x = 2 :: (tl.length + 2) :: (0 :: hd :: tl) := by
  unfold derInt
  rw [heq]
  simp [hhi]

theorem derInt_eq_low (x : Nat) (hd : Nat) (tl : List Nat)
    (heq : minBytesBE 40 x = hd :: tl) (hlo : ¬ 128 ≤ hd) :
    derInt x = 2 :: (tl.length + 1) :: (hd :: tl) := by
  unfold derInt
  rw [heq]
  simp [hlo]

theorem parseDerInt_cons (len : Nat) (rest : List Nat) :
    parseDerInt (2 :: len :: rest) =
      (if len = 0 then none
       else if len ≤ rest.length then
        match rest.take len with
        | [] => none
        | h :: t =>
          if 128 ≤ h then none
          else if badPad (h :: t) then none
          else some (fromBytesBE (h :: t), rest.drop len)
       else none) := rfl

theorem parseDerInt_derInt (x : Nat) (rest : List Nat) (h1 : 0 < x)
    (h2 : x < 256 ^ 40) :
    parseDerInt (derInt x ++ rest) = some (x, rest) := by
  obtain ⟨hd, tl, heq, hpos, hlt⟩ := minBytesBE_head 40 x h1 h2
  have hval : fromBytesBE (hd :: tl) = x := by
    rw [← heq]; exact fromBytesBE_minBytesBE 40 x h2
  by_cases hhi : 128 ≤ hd
  · rw [derInt_eq_high x hd tl heq hhi]
    have hshape : (2 :: (tl.length + 2) :: (0 :: hd :: tl)) ++ rest
        = 2 :: (tl.length + 2) :: ((0 :: hd :: tl) ++ rest) := by simp
    rw [hshape, parseDerInt_cons]
    have hlen : (0 :: hd :: tl).length = tl.length + 2 := by simp
    rw [if_neg (by omega), if_pos (by simp), List.take_left' hlen, List.drop_left' hlen]
    change (if 128 ≤ (0 : Nat) then none
      else if badPad (0 :: hd :: tl) = true then none
      else some (fromBytesBE (0 :: hd :: tl), rest)) = some (x, rest)
    rw [badPad_of_high hd tl hhi]
    have hzero : fromBytesBE (0 :: hd :: tl) = x := by
      rw [fromBytesBE_cons]; simpa using hval
    simp [hzero]
  · rw [derInt_eq_low x hd tl heq hhi]
    have hshape : (2 :: (tl.length + 1) :: (hd :: tl)) ++ rest
        = 2 :: (tl.length + 1) :: ((hd :: tl) ++ rest) := by simp
    rw [hshape, parseDerInt_cons]
    have hlen : (hd :: tl).length = tl.length + 1 := by simp
    rw [if_neg (by omega), if_pos (by simp), List.take_left' hlen, List.drop_left' hlen]
    change (if 128 ≤ hd then none
      else if badPad (hd :: tl) = true then none
      else some (fromBytesBE (hd :: tl), rest)) = some (x, rest)
    rw [badPad_of_ne_zero hd tl (by omega)]
    simp [hhi, hval]

theorem from_der_derEncode (r s : Nat) (hr1 : 0 < r) (hr2 : r < 256 ^ 40)
    (hs1 : 0 < s) (hs2 : s < 256 ^ 40) :
    from_der (derEncode r s) = some (r, s) := by
  have hshape : derEncode r s
      = 48 :: ((derInt r).length + (derInt s).length) :: (derInt r ++ derInt s) := rfl
  rw [hshape]
  have hlen : (derInt r).length + (derInt s).length = (derInt r ++ derInt s).length := by
    simp
  show (if (derInt r).length + (derInt s).length = (derInt r ++ derInt s).length then
      match parseDerInt (derInt r ++ derInt s) with
      | some (r1, rest2) =>
        match parseDerInt rest2 with
        | some (s1, rest3) => if rest3 = [] then some (r1, s1) else none
        | none => none
      | none => none
    else none) = some (r, s)
  rw [if_pos hlen, parseDerInt_derInt r (derInt s) hr1 hr2]
  have hs' := parseDerInt_derInt s [] hs1 hs2
  rw [List.append_nil] at hs'
  change (match parseDerInt (derInt s) with
    | some (s1, rest3) => if rest3 = [] then some (r, s1) else none
    | none => none) = some (r, s)
  rw [hs']
  rfl

theorem n_lt_pow40 : n < 256 ^ 40 := by decide

theorem from_compact_compactEncode (r s : Nat) (hr : r < n) (hs : s < n) :
    from_compact (compactEncode r s) = some (r, s) := by
  have hlenr : (toBytesBE 32 r).length = 32 := toBytesBE_length 32 r
  have h64 : (compactEncode r s).length = 64 := by
    simp [compactEncode, toBytesBE_length]
  unfold from_compact
  rw [if_pos h64]
  show (if fromBytesBE ((compactEncode r s).take 32) < n ∧
          fromBytesBE ((compactEncode r s).drop 32) < n then
      some (fromBytesBE ((compactEncode r s).take 32),
            fromBytesBE ((compactEncode r s).drop 32))
    else none) = some (r, s)
  have htake : (compactEncode r s).take 32 = toBytesBE 32 r := List.take_left' hlenr
  have hdrop : (compactEncode r s).drop 32 = toBytesBE 32 s := List.drop_left' hlenr
  have hn : n < 256 ^ 32 := by decide
  rw [htake, hdrop, fromBytesBE_toBytesBE 32 r (by omega),
    fromBytesBE_toBytesBE 32 s (by omega)]
  rw [if_pos ⟨hr, hs⟩]

theorem compactEncode_length (r s : Nat) : (compactEncode r s).length = 64 := by
  simp [compactEncode, toBytesBE_length]

theorem negY_lt (y : Nat) : negY y < p := Nat.mod_lt _ p_pos

theorem negY_negY (y : Nat) (h : y < p) : negY (negY y) = y := by
  unfold negY
  rw [Nat.mod_eq_of_lt h]
  rcases Nat.eq_zero_or_pos y with h0 | h0
  · subst h0; simp
  · have h1 : p - y < p := by omega
    rw [Nat.mod_eq_of_lt h1, Nat.mod_eq_of_lt h1]
    have h3 : p - (p - y) = y := by omega
    rw [h3, Nat.mod_eq_of_lt h]

theorem negY_sq (y : Nat) (h : y < p) : negY y * negY y % p = y * y % p := by
  unfold negY
  rw [Nat.mod_eq_of_lt h]
  rcases Nat.eq_zero_or_pos y with h0 | h0
  · subst h0; simp
  · have h1 : p - y < p := by omega
    rw [Nat.mod_eq_of_lt h1]
    have h2 : y ≤ p := Nat.le_of_lt h
    zify [h2]
    have expand : ((p : Int) - y) * ((p : Int) - y) = y * y + (p : Int) * (p - 2 * y) := by
      ring
    rw [expand, Int.add_mul_emod_self_left]

theorem onCurve_negPt (P : Pt) (h : onCurve P) : onCurve (negPt P) := by
  obtain ⟨hx, hy, heq⟩ := h
  refine ⟨hx, negY_lt P.y, ?_⟩
  show negY P.y * negY P.y % p = _
  rw [negY_sq P.y hy]
  exact heq

theorem negPt_negPt (P : Pt) (h : onCurve P) : negPt (negPt P) = P := by
  obtain ⟨-, hy, -⟩ := h
  cases P with
  | mk x y =>
    show Pt.mk x (negY (negY y)) = Pt.mk x y
    rw [negY_negY y hy]

theorem addPt_negPt (P : Pt) (h : onCurve P) : addPt P (negPt P) = none := by
  obtain ⟨-, hy, -⟩ := h
  unfold addPt
  have hx : P.x = (negPt P).x := rfl
  have hyy : P.y = negY ((negPt P).y) := by
    show P.y = negY (negY P.y)
    rw [negY_negY P.y hy]
  rw [if_pos hx, if_pos hyy]

/-! ### The claims -/

set_option maxRecDepth 100000

/-- Claim C1: the spec says pubkey-tweak-add outputs `P + t * G`, but the
source discards the sum (`Ok(..)`) and prints the input point: at the
concrete input `P = G`, `t = 1` the command succeeds yet outputs `G`
itself, while the true tweaked point `G + 1 * G` differs from `G`. -/
theorem claim_C1_tweak_add_outputs_input_point :
    exec_pubkey_tweak_add Gpt (toBytesBE 32 1) = some (.ok Gpt) ∧
    tweakAdd Gpt 1 ≠ some Gpt ∧ (tweakAdd Gpt 1).isSome := by decide

/-- Claim C2: when the signature verifies only against the byte-reversed
digest, `exec_verify` with retry enabled reports the reversed-validity
outcome, and with `--no-try-reverse` reports plain invalidity. -/
theorem claim_C2_reverse_retry (verify : List Nat → Bool) (m : List Nat)
    (hlen : m.length = 32) (hfwd : verify m = false)
    (hrev : verify m.reverse = true) :
    exec_verify verify m false false = some .validReversed ∧
    exec_verify verify m false true = some .invalid := by
  unfold exec_verify
  simp [hlen, hfwd, hrev]

/-- Witness for C2 at a concrete 32-byte digest and a concrete predicate
accepting exactly the reversed digest. -/
theorem claim_C2_witness :
    exec_verify (fun l => l == 1 :: List.replicate 31 0)
      (List.replicate 31 0 ++ [1]) false false = some .validReversed ∧
    exec_verify (fun l => l == 1 :: List.replicate 31 0)
      (List.replicate 31 0 ++ [1]) false true = some .invalid :=
  claim_C2_reverse_retry _ _ (by decide) (by decide) (by decide)

/-- Claim C3 states the spec's intent, but the code fails it: at the
concrete failing input — a version-0 witness program of 21 zero bytes —
the pinned address parser rejects the string before any classification
(`Address::from_str` fails with the segwit v0 length error, so the
`expect` at address.rs:117 panics and the whole pipeline yields no
report), even though the classifier itself, were the payload ever to
reach it, would have produced the `invalid-witness-program` outcome the
claim requires; that branch is unreachable dead code. -/
theorem claim_C3_parse_rejects_nonstandard_v0 :
    exec_inspect_segwit .bitcoin 0 (List.replicate 21 0) = none ∧
    segwit_payload_check 0 (List.replicate 21 0) = none ∧
    (exec_inspect ⟨.bitcoin, .witnessProgram 0 (List.replicate 21 0)⟩).type_
        = some "invalid-witness-program" := by decide

/-- Counterexample to C4 as stated: `r = s = 2 ^ 224` is an in-range
signature value whose DER encoding happens to be exactly 64 bytes; the
length-sniffing decoder parses those bytes as the compact form, succeeds,
and returns a different algebraic value. -/
theorem claim_C4_counterexample :
    (0 < 2 ^ 224 ∧ 2 ^ 224 < n) ∧
    (decode_signature (derEncode (2 ^ 224) (2 ^ 224))).isSome ∧
    decode_signature (derEncode (2 ^ 224) (2 ^ 224))
        ≠ some (2 ^ 224, 2 ^ 224) := by decide

/-- Claim C4 as amended: decoding the 64-byte compact encoding always
recovers the signature value, and decoding the DER encoding recovers it
whenever that encoding is not exactly 64 bytes long (a 64-byte DER
encoding is instead interpreted as the compact form). -/
theorem claim_C4_amended (r s : Nat) (hr1 : 0 < r) (hr : r < n)
    (hs1 : 0 < s) (hs : s < n) :
    decode_signature (compactEncode r s) = some (r, s) ∧
    ((derEncode r s).length ≠ 64 →
      decode_signature (derEncode r s) = some (r, s)) := by
  constructor
  · unfold decode_signature
    rw [if_pos (compactEncode_length r s)]
    exact from_compact_compactEncode r s hr hs
  · intro hlen
    unfold decode_signature
    rw [if_neg hlen]
    have hn40 := n_lt_pow40
    exact from_der_derEncode r s hr1 (by omega) hs1 (by omega)

/-- Witness for the amended C4 at `r = s = 1` (an 8-byte DER encoding). -/
theorem claim_C4_witness :
    decode_signature (compactEncode 1 1) = some (1, 1) ∧
    decode_signature (derEncode 1 1) = some (1, 1) :=
  ⟨(claim_C4_amended 1 1 (by decide) (by decide) (by decide) (by decide)).1,
   (claim_C4_amended 1 1 (by decide) (by decide) (by decide) (by decide)).2
     (by decide)⟩

/-- Counterexample to C5 as stated: the all-zero 32-byte string is
accepted by the tweak-scalar parser (`Scalar::from_be_bytes`) with value
0, although 0 is outside the claimed range `[1, n-1]`. -/
theorem claim_C5_counterexample :
    (List.replicate 32 (0 : Nat)).length = 32 ∧
    scalar_from_be_bytes (List.replicate 32 0) = some 0 ∧
    ¬ 1 ≤ (0 : Nat) := by decide

/-- Claim C5 as amended: a 32-byte value where a tweak scalar is expected
is accepted exactly when it is below the group order `n` (zero included),
and an accepted value is returned verbatim, never reduced modulo `n`. -/
theorem claim_C5_amended (bytes : List Nat) (hlen : bytes.length = 32) :
    ((∃ v, scalar_from_be_bytes bytes = some v) ↔ fromBytesBE bytes < n) ∧
    (∀ v, scalar_from_be_bytes bytes = some v → v = fromBytesBE bytes) := by
  unfold scalar_from_be_bytes
  rw [if_pos hlen]
  by_cases h : fromBytesBE bytes < n
  · constructor
    · simp [h]
    · intro v hv
      rw [if_pos h] at hv
      exact (Option.some.inj hv).symm
  · constructor
    · simp [h]
    · intro v hv
      rw [if_neg h] at hv
      exact absurd hv (by simp)

/-- Witness for the amended C5 at the all-zero 32-byte string. -/
theorem claim_C5_witness :
    ((∃ v, scalar_from_be_bytes (List.replicate 32 0) = some v)
        ↔ fromBytesBE (List.replicate 32 0) < n) ∧
    (∀ v, scalar_from_be_bytes (List.replicate 32 0) = some v
        → v = fromBytesBE (List.replicate 32 0)) :=
  claim_C5_amended (List.replicate 32 0) (by decide)

/-- Claim C6: whenever more than one of the three internal-key sources is
present, `exec_create` fails with the ambiguity error, for every possible
value of the sources — including values whose later resolution would
itself fail — because the check precedes all resolution and curve work. -/
theorem claim_C6_ambiguous_sources (h_flag : Bool) (key ent : Option (List Nat))
    (hmany : more_than_one [h_flag, key.isSome, ent.isSome] = true) :
    exec_create_nums h_flag key ent = .error .ambiguousInternalKeySource := by
  unfold exec_create_nums
  simp [hmany]

/-- Witness for C6: the `-h` flag together with an unparsable explicit
internal key is rejected as ambiguous (the bad key is never parsed). -/
theorem claim_C6_witness :
    exec_create_nums true (some [1, 2, 3]) none
        = .error .ambiguousInternalKeySource :=
  claim_C6_ambiguous_sources true (some [1, 2, 3]) none (by decide)

/-- Claim C7: `nums` is definitionally the tweak-add of the NUMS constant
`H` by the entropy, fails exactly when that tweak-add fails, and at
entropy 0 returns `H` itself. -/
theorem claim_C7_nums_is_tweak_add :
    (∀ e, e < n → nums e = tweakAdd NUMS_H e
        ∧ ((nums e).isSome ↔ (tweakAdd NUMS_H e).isSome)) ∧
    nums 0 = some NUMS_H := by
  refine ⟨fun e _ => ⟨rfl, Iff.rfl⟩, ?_⟩
  decide

/-- Witness for C7 at entropy 5 and at entropy 0. -/
theorem claim_C7_witness :
    nums 5 = tweakAdd NUMS_H 5 ∧ nums 0 = some NUMS_H :=
  ⟨(claim_C7_nums_is_tweak_add.1 5 (by decide)).1,
   claim_C7_nums_is_tweak_add.2⟩

/-- Claim C8: combining a valid point with its negation fails with the
combination error (the sum is infinity), and whenever the sum of two
points is a finite point the command succeeds and returns exactly it. -/
theorem claim_C8_combine :
    (∀ P, onCurve P →
      exec_pubkey_combine P (negPt P) = .error .invalidCombination) ∧
    (∀ P Q S, addPt P Q = some S → exec_pubkey_combine P Q = .ok S) := by
  constructor
  · intro P h
    unfold exec_pubkey_combine
    rw [addPt_negPt P h]
  · intro P Q S h
    unfold exec_pubkey_combine
    rw [h]

/-- Witness for C8 at the base point `G`. -/
theorem claim_C8_witness :
    exec_pubkey_combine Gpt (negPt Gpt) = .error .invalidCombination ∧
    exec_pubkey_combine Gpt Gpt = .ok ((addPt Gpt Gpt).getD ⟨0, 0⟩) :=
  ⟨claim_C8_combine.1 Gpt (by decide),
   claim_C8_combine.2 Gpt Gpt ((addPt Gpt Gpt).getD ⟨0, 0⟩) (by decide)⟩

/-- Claim C9: negation of a valid point is an involution, and it always
succeeds, producing a valid (on-curve, reduced) point. -/
theorem claim_C9_negate_involution (P : Pt) (h : onCurve P) :
    negPt (negPt P) = P ∧ onCurve (negPt P) :=
  ⟨negPt_negPt P h, onCurve_negPt P h⟩

/-- Witness for C9 at the base point `G`. -/
theorem claim_C9_witness :
    negPt (negPt Gpt) = Gpt ∧ onCurve (negPt Gpt) :=
  claim_C9_negate_involution Gpt (by decide)

/-- Claim C10: the outputs of negate-pubkey and pubkey-combine are the
33-byte compressed serialization of the result, independent of the
compression flags carried by the parsed input keys. -/
theorem claim_C10_output_always_compressed (pt q : Pt) (c1 c2 d1 d2 : Bool) :
    exec_negate_pubkey ⟨pt, c1⟩ = exec_negate_pubkey ⟨pt, c2⟩ ∧
    (exec_negate_pubkey ⟨pt, c1⟩).length = 33 ∧
    exec_pubkey_combine_out ⟨pt, c1⟩ ⟨q, d1⟩
        = exec_pubkey_combine_out ⟨pt, c2⟩ ⟨q, d2⟩ ∧
    (∀ out, exec_pubkey_combine_out ⟨pt, c1⟩ ⟨q, d1⟩ = some out
        → out.length = 33) := by
  refine ⟨rfl, ?_, rfl, ?_⟩
  · show (serialize_compressed (negPt pt)).length = 33
    simp [serialize_compressed, toBytesBE_length]
  · intro out hout
    unfold exec_pubkey_combine_out exec_pubkey_combine at hout
    rcases hA : addPt pt q with _ | S
    · rw [hA] at hout
      exact absurd hout (by simp)
    · rw [hA] at hout
      have : serialize_compressed S = out := by
        simpa using hout
      rw [← this]
      simp [serialize_compressed, toBytesBE_length]

/-- Witness for C10 at the base point `G` with both flag settings. -/
theorem claim_C10_witness :
    exec_negate_pubkey ⟨Gpt, true⟩ = exec_negate_pubkey ⟨Gpt, false⟩ ∧
    (exec_negate_pubkey ⟨Gpt, true⟩).length = 33 ∧
    exec_pubkey_combine_out ⟨Gpt, true⟩ ⟨Gpt, true⟩
        = exec_pubkey_combine_out ⟨Gpt, false⟩ ⟨Gpt, false⟩ ∧
    (serialize_compressed ((addPt Gpt Gpt).getD ⟨0, 0⟩)).length = 33 :=
  have h := claim_C10_output_always_compressed Gpt Gpt true false true false
  ⟨h.1, h.2.1, h.2.2.1, h.2.2.2 (serialize_compressed ((addPt Gpt Gpt).getD ⟨0, 0⟩)) (by decide)⟩

end Hal
